import Mathlib

/-!
Verification development for zscaler-dr-pacbuilder (src/pacbuilder.py).

The program is a five-stage batch pipeline: parse a local allow-list file,
fetch a remote exclusion list, deduplicate, render a PAC document, validate
it, and write it to disk.  This file gives a shallow embedding of that
pipeline: pure Python functions become Lean functions on `String` /
`List Char`, the file system and the network become explicit parameters
(`Option` of file contents, `Except` of an HTTP response), and
process-terminating errors (`sys.exit(1)`) become `Except` error values.

Character-level note: the source normalizes lines with Python
`str.strip()` and `str.lower()`.  Both are modelled on ASCII (space, tab,
CR, LF, VT, FF for stripping; the 26 letters for lowering), which is the
alphabet the domain grammar accepts; the Unicode-only differences cannot
affect whether a line is accepted as a domain.
-/

namespace PacBuilder

/-- Decidable bounded range check on naturals, used for ASCII classes. -/
def between (lo hi n : Nat) : Bool :=
  decide (lo ≤ n ∧ n ≤ hi)

/-- Characters allowed inside a domain label by `DOMAIN_RE`: the ASCII
class `[A-Za-z0-9-]` (codes 65-90, 97-122, 48-57, 45). -/
def isLabelChar (c : Char) : Bool :=
  between 65 90 c.toNat || between 97 122 c.toNat ||
    between 48 57 c.toNat || decide (c.toNat = 45)

/-- Characters matched by `[A-Za-z]` in the final-label part of `DOMAIN_RE`. -/
def isAlphaCh (c : Char) : Bool :=
  between 65 90 c.toNat || between 97 122 c.toNat

/-- ASCII uppercase letters A-Z (codes 65-90). -/
def isUpperCh (c : Char) : Bool :=
  between 65 90 c.toNat

/-- Model of Python `str.lower()` on one character (ASCII part): maps
A-Z to a-z and leaves everything else unchanged. -/
def lowerChar (c : Char) : Char :=
  if 65 ≤ c.toNat ∧ c.toNat ≤ 90 then Char.ofNat (c.toNat + 32) else c

/-- Whitespace stripped by Python `str.strip()` (ASCII part): space, tab,
LF, CR, VT (code 11), FF (code 12). -/
def isSpacePy (c : Char) : Bool :=
  decide (c.toNat = 32) || decide (c.toNat = 9) || decide (c.toNat = 10) ||
    decide (c.toNat = 13) || decide (c.toNat = 11) || decide (c.toNat = 12)

/-- Model of Python `str.strip()`: drop leading and trailing whitespace. -/
def stripChars (cs : List Char) : List Char :=
  ((cs.dropWhile isSpacePy).reverse.dropWhile isSpacePy).reverse

/-- The characters rejected by `INVALID_CHARS_RE`, by ASCII code:
double quote 34, single quote 39, comma 44, semicolon 59, colon 58,
33 64 35 36 37 94 38 42 40 41 43 61 (punctuation), square brackets 91 93,
braces 123 125, angle brackets 60 62, pipe 124, backslash 92, tilde 126,
code 96, space 32, tab 9. -/
def invalidCharCodes : List Nat :=
  [34, 39, 44, 59, 58, 33, 64, 35, 36, 37, 94, 38, 42, 40, 41, 43, 61,
   91, 93, 123, 125, 60, 62, 124, 92, 126, 96, 32, 9]

/-- Membership in the `INVALID_CHARS_RE` character class. -/
def isInvalidChar (c : Char) : Bool :=
  invalidCharCodes.contains c.toNat

/-- Model of `_check_invalid_chars` reduced to its decision content: does
the line contain any character of `INVALID_CHARS_RE`?  (The Python
function also renders a human-readable description of the offending
characters; only the accept/reject decision feeds the pipeline.) -/
def hasInvalidChars (cs : List Char) : Bool :=
  cs.any isInvalidChar

/-- Split a character list at every dot.  This is the canonical
decomposition of a candidate domain into its dot-separated components:
`DOMAIN_RE` is a regular expression whose label groups contain no dot and
are separated by literal dots, so a string matches it exactly when this
decomposition satisfies the per-label checks below. -/
def splitDots : List Char → List (List Char)
  | [] => [[]]
  | c :: rest =>
    match splitDots rest with
    | [] => [[]]
    | h :: t => if c = '.' then [] :: h :: t else (c :: h) :: t

/-- Joining with dots, the inverse of `splitDots`. -/
def joinDots : List (List Char) → List Char
  | [] => []
  | [l] => l
  | l :: ls => l ++ '.' :: joinDots ls

/-- Check on the FIRST dot-separated component of `DOMAIN_RE`, which is the
part `(?!-)[A-Za-z0-9-]\x7b1,63\x7d(?<!-)`: 1 to 63 class characters, and
the negative lookahead/lookbehind forbid a leading or trailing hyphen. -/
def firstLabelOk (l : List Char) : Bool :=
  decide (1 ≤ l.length) && decide (l.length ≤ 63) && l.all isLabelChar &&
    decide (l.head? ≠ some '-') && decide (l.getLast? ≠ some '-')

/-- Check on a MIDDLE dot-separated component, from the group
`(\.[A-Za-z0-9-]\x7b1,63\x7d)*`: 1 to 63 class characters.  Note the
regex places no hyphen-position restriction on these components. -/
def middleLabelOk (l : List Char) : Bool :=
  decide (1 ≤ l.length) && decide (l.length ≤ 63) && l.all isLabelChar

/-- Check on the FINAL dot-separated component, from `\.[A-Za-z]\x7b2,\x7d$`:
at least two alphabetic characters, with no upper length bound. -/
def finalLabelOk (l : List Char) : Bool :=
  decide (2 ≤ l.length) && l.all isAlphaCh

/-- The language of `DOMAIN_RE` (what `DOMAIN_RE.match(line)` accepts).
Because every label group of the regex is dot-free and the groups are
separated by literal dots, a string is in the language exactly when its
dot decomposition has at least two components whose first, middle and
final parts satisfy the respective group checks. -/
def domainReCh (cs : List Char) : Bool :=
  match splitDots cs with
  | p0 :: p1 :: rest =>
      firstLabelOk p0 && (p1 :: rest).dropLast.all middleLabelOk &&
        finalLabelOk ((p1 :: rest).getLastD [])
  | _ => false

/-- String-level wrapper for `DOMAIN_RE.match`. -/
def domainRe (s : String) : Bool :=
  domainReCh s.data

/-- Label as described by the SPEC grammar: 1 to 63 characters from
`[A-Za-z0-9-]`, no leading or trailing hyphen. -/
def StrictLabel (l : List Char) : Prop :=
  1 ≤ l.length ∧ l.length ≤ 63 ∧ (∀ c ∈ l, isLabelChar c = true) ∧
    l.head? ≠ some '-' ∧ l.getLast? ≠ some '-'

/-- Label with 1 to 63 class characters but no hyphen-position
restriction (what `DOMAIN_RE` actually requires of non-first, non-final
components). -/
def LaxLabel (l : List Char) : Prop :=
  1 ≤ l.length ∧ l.length ≤ 63 ∧ ∀ c ∈ l, isLabelChar c = true

/-- Final label as described by the spec: alphabetic, length at least 2. -/
def AlphaFinalLabel (l : List Char) : Prop :=
  2 ≤ l.length ∧ ∀ c ∈ l, isAlphaCh c = true

/-- The SPEC domain grammar, stated in the words of the specification:
there is a decomposition into at least two dot-separated labels, EVERY
label is 1-63 class characters with no leading/trailing hyphen, and the
final label is alphabetic of length at least 2. -/
def SpecDomainGrammar (cs : List Char) : Prop :=
  ∃ labels : List (List Char), 2 ≤ labels.length ∧ joinDots labels = cs ∧
    (∀ l ∈ labels, StrictLabel l) ∧ AlphaFinalLabel (labels.getLastD [])

/-- The grammar the code actually implements, stated in the same style:
the hyphen-position restriction applies only to the first label, middle
labels are lax, and the final label is alphabetic of length at least 2
with no 63-character cap. -/
def AmendedDomainGrammar (cs : List Char) : Prop :=
  ∃ labels : List (List Char), 2 ≤ labels.length ∧ joinDots labels = cs ∧
    StrictLabel (labels.headD []) ∧ (∀ l ∈ labels.tail.dropLast, LaxLabel l) ∧
    AlphaFinalLabel (labels.getLastD [])

/-- Normalization applied to every line by the source
(`raw_line.strip().lower()`), at the character-list level. -/
def normLineCh (cs : List Char) : List Char :=
  (stripChars cs).map lowerChar

/-- String-level wrapper: `raw_line.strip().lower()`. -/
def normLine (s : String) : String :=
  String.mk (normLineCh s.data)

/-- Model of Python `str.strip()` at the `String` level. -/
def stripStr (s : String) : String :=
  String.mk (stripChars s.data)

/-- Model of Python `str.lower()` at the `String` level (ASCII part). -/
def lowerStr (s : String) : String :=
  String.mk (s.data.map lowerChar)

/-- Check that a string contains no ASCII uppercase letter. -/
def noUpperCh (cs : List Char) : Bool :=
  cs.all fun c => !isUpperCh c

/-- Strict comparison of characters by code point, as Python compares
characters inside string comparison. -/
def charLt (a b : Char) : Bool :=
  decide (a.toNat < b.toNat)

/-- Lexicographic strict order on character lists by code point: the
order Python `sorted` uses on strings. -/
def lexLt : List Char → List Char → Bool
  | [], [] => false
  | [], _ :: _ => true
  | _ :: _, [] => false
  | a :: as, b :: bs => charLt a b || (a == b && lexLt as bs)

/-- Python string `<` (code-point lexicographic), executable. -/
def strLt (a b : String) : Bool :=
  lexLt a.data b.data

/-- Ordered duplicate-free insertion.  `sortedUnique` below characterizes
Python `sorted(set(domains))`: the strictly increasing enumeration of the
distinct elements. -/
def insertDom (x : String) : List String → List String
  | [] => [x]
  | y :: ys =>
    if strLt x y then x :: y :: ys
    else if x = y then y :: ys
    else y :: insertDom x ys

/-- Model of Python `sorted(set(domains))`: fold the list into a sorted
duplicate-free list. -/
def sortedUnique (l : List String) : List String :=
  l.foldr insertDom []

/-- The filters applied to a line before the domain-grammar check
(model of lines 57-68 of `parse_allow_list`): after normalization the
line is nonempty, is not a comment, and has no invalid character. -/
def lineSurvives (raw : String) : Bool :=
  let line := normLineCh raw.data
  !line.isEmpty && !(line.head? = some '#' : Bool) && !hasInvalidChars line

/-- Whether `parse_allow_list` accepts the line as a domain (it survives
the filters and matches `DOMAIN_RE`). -/
def lineAccepted (raw : String) : Bool :=
  lineSurvives raw && domainReCh (normLineCh raw.data)

/-- Per-line body of the read loop of `parse_allow_list`: normalize, skip
blank and comment lines, skip lines with invalid characters, skip lines
not matching `DOMAIN_RE`, keep the rest. -/
def collectDomains (rawLines : List String) : List String :=
  rawLines.filterMap fun raw =>
    let line := normLineCh raw.data
    if line.isEmpty then none
    else if line.head? = some '#' then none
    else if hasInvalidChars line then none
    else if domainReCh line then some (String.mk line)
    else none

/-- The two process-terminating errors of `parse_allow_list`
(`sys.exit(1)` with the corresponding stderr message). -/
inductive ParseFatal
  | fileNotFound
  | noValidDomains
deriving DecidableEq

/-- Model of `parse_allow_list`.  The file system is passed explicitly:
`none` means `path.is_file()` is false, `some rawLines` gives the lines
of the file.  Termination via `sys.exit(1)` is the `Except.error` case. -/
def parse_allow_list (file : Option (List String)) : Except ParseFatal (List String) :=
  match file with
  | none => Except.error ParseFatal.fileNotFound
  | some rawLines =>
    let unique := sortedUnique (collectDomains rawLines)
    if unique.isEmpty then Except.error ParseFatal.noValidDomains
    else Except.ok unique

/-- Model of `deduplicate`: one pass over the allow list, routing each
domain to `removed` if the Zscaler set contains it, else to `kept`.  The
Python `set` is modelled as a duplicate-free list with membership. -/
def deduplicate (allow_list : List String) (zscaler_domains : List String) :
    List String × List String :=
  match allow_list with
  | [] => ([], [])
  | d :: rest =>
    let p := deduplicate rest zscaler_domains
    if d ∈ zscaler_domains then (p.1, d :: p.2) else (d :: p.1, p.2)

/-- Set insertion for the modelled `set.add`. -/
def setInsert (s : List String) (x : String) : List String :=
  if x ∈ s then s else s ++ [x]

/-- Split a response body at every newline (model of `str.splitlines` for
LF-separated text; a trailing CR on a line is removed by the per-line
strip, matching CRLF input, and a trailing blank piece is skipped by the
blank-line filter). -/
def splitNl : List Char → List (List Char)
  | [] => [[]]
  | c :: rest =>
    match splitNl rest with
    | [] => [[]]
    | h :: t => if c = '\n' then [] :: h :: t else (c :: h) :: t

/-- Wildcard normalization of `fetch_zscaler_preselected`: a line
beginning with `*.` has that prefix removed to yield the apex domain. -/
def stripWildcard (cs : List Char) : List Char :=
  match cs with
  | '*' :: '.' :: rest => rest
  | _ => cs

/-- Per-line body of the response loop of `fetch_zscaler_preselected`:
normalize, skip blanks and comments, strip a `*.` wildcard, keep the
token only if it matches `DOMAIN_RE` (invalid tokens dropped silently). -/
def processDrdbLine (acc : List String) (rawLine : List Char) : List String :=
  let line := normLineCh rawLine
  if line.isEmpty then acc
  else if line.head? = some '#' then acc
  else
    let line2 := stripWildcard line
    if domainReCh line2 then setInsert acc (String.mk line2) else acc

/-- Model of `fetch_zscaler_preselected`.  The network is passed
explicitly: `Except.error` is any caught `URLError`/`OSError` (the
function then returns the empty set), `Except.ok body` is the decoded
response text. -/
def fetch_zscaler_preselected (response : Except String String) : List String :=
  match response with
  | Except.error _ => []
  | Except.ok body => (splitNl body.data).foldl processDrdbLine []

/-- Check whether `needle` is a prefix of `hay` character-wise. -/
def matchesFront : List Char → List Char → Bool
  | [], _ => true
  | _ :: _, [] => false
  | a :: as, b :: bs => a == b && matchesFront as bs

/-- Check whether `needle` occurs as a contiguous run in `hay`
(model of the Python `in` operator on strings). -/
def hasSubChars (needle : List Char) : List Char → Bool
  | [] => needle.isEmpty
  | c :: rest => matchesFront needle (c :: rest) || hasSubChars needle rest

/-- String-level substring containment, `needle in hay` in Python. -/
def containsSub (hay needle : String) : Bool :=
  hasSubChars needle.data hay.data

/-- A single-quote character as a string (code 39). -/
def sq : String :=
  String.singleton (Char.ofNat 39)

/-- Diagnostic emitted when the function marker is missing. -/
def msgMissingFunction : String := "missing FindProxyForURL function"

/-- Diagnostic emitted when no DIRECT return is found. -/
def msgNoDirect : String := "no DIRECT return found"

/-- Diagnostic emitted when no PROXY return is found. -/
def msgNoProxy : String := "no PROXY return found"

/-- Outcome of the optional Node.js validation subprocess calls in
`validate_pac`: node missing (`FileNotFoundError`), node timing out
(`TimeoutExpired`), the first or second invocation succeeding, or both
invocations failing with some stderr text. -/
inductive NodeOutcome
  | notFound
  | timeout
  | passed
  | firstFailedSecondPassed
  | bothFailed (msg : String)

/-- Model of `validate_pac`: the three structural checks in source
order, then the optional engine check (parameterized by the engine
behaviour `node`).  Returns the boolean result and the error messages
printed. -/
def validate_pac (node : NodeOutcome) (pac_content : String) : Bool × List String :=
  if !containsSub pac_content "function FindProxyForURL" then
    (false, [msgMissingFunction])
  else if !containsSub pac_content "\"DIRECT\"" &&
      !containsSub pac_content (sq ++ "DIRECT" ++ sq) then
    (false, [msgNoDirect])
  else if !containsSub pac_content "\"PROXY" &&
      !containsSub pac_content (sq ++ "PROXY") then
    (false, [msgNoProxy])
  else
    match node with
    | NodeOutcome.bothFailed msg => (false, [msg])
    | _ => (true, [])

/-- Wrap a domain in double quotes for embedding in the PAC document. -/
def quoteDom (d : String) : String :=
  "\"" ++ d ++ "\""

/-- Modelled from the spec: the list-literal body produced by the Jinja2
template `templates/proxy.pac.j2`, which is not under src/.  Following
section 4.4 of the spec and the repository tests: each domain on its own
line as a double-quoted literal, comma-separated, no trailing comma after
the last entry, and the zero-domain case produces an empty body so the
literal stays syntactically valid. -/
def domainListBlock : List String → String
  | [] => ""
  | [d] => "    " ++ quoteDom d ++ "\n"
  | d :: rest => "    " ++ quoteDom d ++ ",\n" ++ domainListBlock rest

/-- Modelled from the spec: `render_pac` applied to the repository
template `templates/proxy.pac.j2`, which is not under src/.  Following
section 4.4 of the spec and the repository tests: a JavaScript
`FindProxyForURL(url, host)` function over an embedded list literal of
the supplied domains in input order, returning a proxy directive on match
and a direct directive otherwise, ending with a trailing newline. -/
def render_pac (domains : List String) : String :=
  "// proxy.pac generated by zscaler-dr-pacbuilder\n" ++
  "// Domain count: " ++ toString domains.length ++ "\n" ++
  "function FindProxyForURL(url, host) \x7b\n" ++
  "    var allowed = [\n" ++
  domainListBlock domains ++
  "    ];\n" ++
  "    for (var i = 0; i < allowed.length; i++) \x7b\n" ++
  "        if (host == allowed[i] || dnsDomainIs(host, \".\" + allowed[i])) \x7b\n" ++
  "            return \"PROXY 127.0.0.1:1\";\n" ++
  "        \x7d\n" ++
  "    \x7d\n" ++
  "    return \"DIRECT\";\n" ++
  "\x7d\n"

/-- The two command-line switches of `main` that affect control flow. -/
structure Args where
  skipDedup : Bool
  skipValidation : Bool

/-- The external world as seen by one run of `main`: the allow-list file
(`none` if missing), the exclusion-list HTTP response, and the node
engine behaviour. -/
structure Env where
  allowFile : Option (List String)
  drdbResponse : Except String String
  node : NodeOutcome

/-- Which optional effects a run of `main` performed: whether the
exclusion fetch was issued, whether `deduplicate` was called, and whether
the all-domains-removed fatal check was evaluated. -/
structure Trace where
  fetchCalled : Bool
  dedupCalled : Bool
  removedCheckDone : Bool
deriving DecidableEq

/-- Shared tail of `main`: render, optionally validate, then write.  The
successful value `(domains, pac)` carries the final domain list and the
document written to the output file; an `Except.error` is a non-zero
process exit with nothing written. -/
def renderValidateWrite (args : Args) (env : Env) (domains : List String)
    (tr : Trace) : Except Nat (List String × String) × Trace :=
  let pac := render_pac domains
  if !args.skipValidation && !(validate_pac env.node pac).1 then
    (Except.error 1, tr)
  else
    (Except.ok (domains, pac), tr)

/-- Stages 1 and 2 of `main`: parse the allow list, then optionally
fetch the Zscaler list and deduplicate.  Mirrors the source exactly: the
fetch happens only without `--skip-dedup`, and both `deduplicate` and the
all-domains-removed fatal check sit inside `if zscaler_domains:`, so they
run only when the fetched set is nonempty. -/
def pipelineDomains (args : Args) (env : Env) : Except Nat (List String) × Trace :=
  match parse_allow_list env.allowFile with
  | Except.error _ => (Except.error 1, ⟨false, false, false⟩)
  | Except.ok domains0 =>
    if args.skipDedup then
      (Except.ok domains0, ⟨false, false, false⟩)
    else
      let zs := fetch_zscaler_preselected env.drdbResponse
      if zs.isEmpty then
        (Except.ok domains0, ⟨true, false, false⟩)
      else
        let kept := (deduplicate domains0 zs).1
        if kept.isEmpty then
          (Except.error 1, ⟨true, true, true⟩)
        else
          (Except.ok kept, ⟨true, true, true⟩)

/-- Model of `main`: parse the allow list, optionally fetch the Zscaler
list and deduplicate (with the all-removed fatal check guarded by the
fetched set being nonempty), render, optionally validate, and write.
The output file is written exactly when the result is `Except.ok`. -/
def main (args : Args) (env : Env) : Except Nat (List String × String) × Trace :=
  match pipelineDomains args env with
  | (Except.error e, tr) => (Except.error e, tr)
  | (Except.ok domains, tr) => renderValidateWrite args env domains tr

/-- The body of the domain list written in the words of the spec: the
quoted, indented entries joined by comma-newline separators (hence one
entry per line and no trailing comma), followed by a final newline when
the list is nonempty, and empty for the empty list. -/
def specListLines (ds : List String) : String :=
  if ds.isEmpty then ""
  else String.intercalate ",\n" (ds.map fun d => "    " ++ quoteDom d) ++ "\n"

theorem splitDots_ne_nil (cs : List Char) : splitDots cs ≠ [] := by
  cases cs with
  | nil => simp [splitDots]
  | cons c rest =>
    simp only [splitDots]
    cases splitDots rest with
    | nil => simp
    | cons h t =>
      by_cases hc : c = '.' <;> simp [hc]

theorem joinDots_cons (l : List Char) (ls : List (List Char)) (h : ls ≠ []) :
    joinDots (l :: ls) = l ++ '.' :: joinDots ls := by
  cases ls with
  | nil => exact absurd rfl h
  | cons a t => rfl

theorem joinDots_splitDots (cs : List Char) : joinDots (splitDots cs) = cs := by
  induction cs with
  | nil => rfl
  | cons c rest ih =>
    rcases hs : splitDots rest with _ | ⟨h, t⟩
    · exact absurd hs (splitDots_ne_nil rest)
    · rw [hs] at ih
      by_cases hc : c = '.'
      · subst hc
        have hred : splitDots ('.' :: rest) = [] :: h :: t := by
          simp [splitDots, hs]
        rw [hred, joinDots_cons _ _ (List.cons_ne_nil h t), ih]
        rfl
      · have hred : splitDots (c :: rest) = (c :: h) :: t := by
          simp [splitDots, hs, hc]
        rw [hred]
        cases t with
        | nil =>
          simp only [joinDots] at ih ⊢
          rw [ih]
        | cons b t2 =>
          rw [joinDots_cons _ _ (List.cons_ne_nil b t2)]
          rw [joinDots_cons _ _ (List.cons_ne_nil b t2)] at ih
          rw [List.cons_append, ih]

theorem splitDots_no_dot {l : List Char} (h : '.' ∉ l) : splitDots l = [l] := by
  induction l with
  | nil => rfl
  | cons c rest ih =>
    have hc : c ≠ '.' := fun hc => h (hc ▸ List.mem_cons_self c rest)
    have hrest : '.' ∉ rest := fun hm => h (List.mem_cons_of_mem c hm)
    simp only [splitDots, ih hrest]
    simp [hc]

theorem splitDots_append_dot {l : List Char} (cs : List Char) (h : '.' ∉ l) :
    splitDots (l ++ '.' :: cs) = l :: splitDots cs := by
  induction l with
  | nil =>
    simp only [List.nil_append, splitDots]
    rcases hs : splitDots cs with _ | ⟨a, t⟩
    · exact absurd hs (splitDots_ne_nil cs)
    · simp
  | cons c rest ih =>
    have hc : c ≠ '.' := fun hc => h (hc ▸ List.mem_cons_self c rest)
    have hrest : '.' ∉ rest := fun hm => h (List.mem_cons_of_mem c hm)
    have h2 := ih hrest
    simp only [List.cons_append, splitDots, List.append_eq]
    rw [h2]
    simp [hc]

theorem splitDots_joinDots {labels : List (List Char)} (hne : labels ≠ [])
    (hnd : ∀ l ∈ labels, '.' ∉ l) :
    splitDots (joinDots labels) = labels := by
  induction labels with
  | nil => exact absurd rfl hne
  | cons l ls ih =>
    cases ls with
    | nil =>
      simp only [joinDots]
      exact splitDots_no_dot (hnd l (List.mem_cons_self l []))
    | cons m ms =>
      rw [joinDots_cons _ _ (by simp)]
      rw [splitDots_append_dot _ (hnd l (List.mem_cons_self l _))]
      congr 1
      exact ih (by simp) (fun x hx => hnd x (List.mem_cons_of_mem l hx))

theorem isLabelChar_dot : isLabelChar '.' = false := by decide

theorem not_dot_of_isLabelChar {c : Char} (h : isLabelChar c = true) : c ≠ '.' := by
  intro hc
  subst hc
  simp [isLabelChar_dot] at h

theorem isLabelChar_of_isAlphaCh {c : Char} (h : isAlphaCh c = true) :
    isLabelChar c = true := by
  simp only [isAlphaCh, between, Bool.or_eq_true, decide_eq_true_eq] at h
  simp only [isLabelChar, between, Bool.or_eq_true, decide_eq_true_eq]
  tauto

theorem firstLabelOk_iff (l : List Char) : firstLabelOk l = true ↔ StrictLabel l := by
  simp [firstLabelOk, StrictLabel, List.all_eq_true, and_assoc]

theorem middleLabelOk_iff (l : List Char) : middleLabelOk l = true ↔ LaxLabel l := by
  simp [middleLabelOk, LaxLabel, List.all_eq_true, and_assoc]

theorem finalLabelOk_iff (l : List Char) : finalLabelOk l = true ↔ AlphaFinalLabel l := by
  simp [finalLabelOk, AlphaFinalLabel, List.all_eq_true]

theorem mem_dropLast_or_getLastD {α : Type} (l : List α) (x d : α) (h : x ∈ l) :
    x ∈ l.dropLast ∨ x = l.getLastD d := by
  induction l with
  | nil => cases h
  | cons a t ih =>
    cases t with
    | nil =>
      right
      simpa using h
    | cons b t2 =>
      rcases List.mem_cons.mp h with rfl | hx
      · left
        simp [List.dropLast]
      · rcases ih hx with hin | hlast
        · left
          simpa [List.dropLast] using Or.inr hin
        · right
          simpa [List.getLastD] using hlast

theorem domainReCh_iff_amended (cs : List Char) :
    domainReCh cs = true ↔ AmendedDomainGrammar cs := by
  constructor
  · intro h
    unfold domainReCh at h
    rcases hs : splitDots cs with _ | ⟨p0, t⟩
    · exact absurd hs (splitDots_ne_nil cs)
    · rcases t with _ | ⟨p1, rest⟩
      · rw [hs] at h
        simp at h
      · rw [hs] at h
        simp only [Bool.and_eq_true] at h
        refine ⟨p0 :: p1 :: rest, by simp, hs ▸ joinDots_splitDots cs, ?_, ?_, ?_⟩
        · simpa [firstLabelOk_iff] using h.1.1
        · intro l hl
          rw [← middleLabelOk_iff]
          have := h.1.2
          rw [List.all_eq_true] at this
          exact this l (by simpa using hl)
        · simpa [finalLabelOk_iff] using h.2
  · rintro ⟨labels, hlen, hjoin, hfirst, hmid, hlast⟩
    rcases labels with _ | ⟨l0, t⟩
    · simp at hlen
    · rcases t with _ | ⟨l1, rest⟩
      · simp at hlen
      · have hfirst0 : StrictLabel l0 := by simpa using hfirst
        have hlastlab : AlphaFinalLabel ((l1 :: rest).getLastD []) := by
          simpa [List.getLastD] using hlast
        have hnodot : ∀ l ∈ l0 :: l1 :: rest, '.' ∉ l := by
          intro l hl hdot
          rcases List.mem_cons.mp hl with rfl | hl2
          · exact not_dot_of_isLabelChar (hfirst0.2.2.1 '.' hdot) rfl
          · rcases mem_dropLast_or_getLastD (l1 :: rest) l [] hl2 with hmidl | hgl
            · have : LaxLabel l := hmid l (by simpa using hmidl)
              exact not_dot_of_isLabelChar (this.2.2 '.' hdot) rfl
            · subst hgl
              have := hlastlab.2 '.' hdot
              exact not_dot_of_isLabelChar (isLabelChar_of_isAlphaCh this) rfl
        have hsplit : splitDots cs = l0 :: l1 :: rest := by
          rw [← hjoin]
          exact splitDots_joinDots (by simp) hnodot
        unfold domainReCh
        rw [hsplit]
        simp only [Bool.and_eq_true]
        refine ⟨⟨?_, ?_⟩, ?_⟩
        · exact (firstLabelOk_iff l0).mpr hfirst0
        · rw [List.all_eq_true]
          intro l hl
          exact (middleLabelOk_iff l).mpr (hmid l (by simpa using hl))
        · exact (finalLabelOk_iff _).mpr hlastlab

theorem toNat_ofNat_small {n : Nat} (h : n < 55296) : (Char.ofNat n).toNat = n := by
  have hv : n.isValidChar := Or.inl h
  rw [Char.ofNat, dif_pos hv]
  simp [Char.ofNatAux, Char.toNat, UInt32.toNat]

theorem lowerChar_toNat (c : Char) :
    (lowerChar c).toNat =
      if 65 ≤ c.toNat ∧ c.toNat ≤ 90 then c.toNat + 32 else c.toNat := by
  unfold lowerChar
  by_cases h : 65 ≤ c.toNat ∧ c.toNat ≤ 90
  · rw [if_pos h, if_pos h, toNat_ofNat_small (by omega)]
  · rw [if_neg h, if_neg h]

theorem char_eq_iff_toNat {a b : Char} : a = b ↔ a.toNat = b.toNat := by
  constructor
  · intro h
    rw [h]
  · intro h
    exact Char.ext (UInt32.ext h)

theorem lowerChar_eq_iff_of_not_letter {c d : Char} (hd : d.toNat < 65 ∨ 122 < d.toNat) :
    lowerChar c = d ↔ c = d := by
  rw [char_eq_iff_toNat, char_eq_iff_toNat, lowerChar_toNat]
  by_cases h : 65 ≤ c.toNat ∧ c.toNat ≤ 90
  · rw [if_pos h]
    omega
  · rw [if_neg h]

theorem lowerChar_not_upper (c : Char) : isUpperCh (lowerChar c) = false := by
  simp only [isUpperCh, between, decide_eq_false_iff_not]
  rw [lowerChar_toNat]
  by_cases h : 65 ≤ c.toNat ∧ c.toNat ≤ 90
  · rw [if_pos h]
    omega
  · rw [if_neg h]
    omega

theorem lowerChar_isLabelChar {c : Char} (h : isLabelChar c = true) :
    isLabelChar (lowerChar c) = true := by
  simp only [isLabelChar, between, Bool.or_eq_true, decide_eq_true_eq] at h ⊢
  rw [lowerChar_toNat]
  by_cases hu : 65 ≤ c.toNat ∧ c.toNat ≤ 90
  · rw [if_pos hu]
    omega
  · rw [if_neg hu]
    omega

theorem lowerChar_isAlphaCh {c : Char} (h : isAlphaCh c = true) :
    isAlphaCh (lowerChar c) = true := by
  simp only [isAlphaCh, between, Bool.or_eq_true, decide_eq_true_eq] at h ⊢
  rw [lowerChar_toNat]
  by_cases hu : 65 ≤ c.toNat ∧ c.toNat ≤ 90
  · rw [if_pos hu]
    omega
  · rw [if_neg hu]
    omega

theorem lowerChar_eq_dot_iff {c : Char} : lowerChar c = '.' ↔ c = '.' :=
  lowerChar_eq_iff_of_not_letter (by left; decide)

theorem lowerChar_eq_dash_iff {c : Char} : lowerChar c = '-' ↔ c = '-' :=
  lowerChar_eq_iff_of_not_letter (by left; decide)

theorem splitDots_map_lower (cs : List Char) :
    splitDots (cs.map lowerChar) = (splitDots cs).map (List.map lowerChar) := by
  induction cs with
  | nil => rfl
  | cons c rest ih =>
    rcases hs : splitDots rest with _ | ⟨h, t⟩
    · exact absurd hs (splitDots_ne_nil rest)
    · rw [hs] at ih
      simp only [List.map_cons, splitDots, ih, hs]
      by_cases hc : c = '.'
      · subst hc
        rw [if_pos (by rw [lowerChar_eq_dot_iff]), if_pos rfl]
        rfl
      · rw [if_neg (fun hl => hc (lowerChar_eq_dot_iff.mp hl)), if_neg hc]
        rfl

theorem noUpperCh_map_lower (cs : List Char) : noUpperCh (cs.map lowerChar) = true := by
  simp only [noUpperCh, List.all_eq_true, List.mem_map]
  rintro x ⟨c, _, rfl⟩
  simp [lowerChar_not_upper]

theorem firstLabelOk_map_lower {l : List Char} (h : firstLabelOk l = true) :
    firstLabelOk (l.map lowerChar) = true := by
  rw [firstLabelOk_iff] at h ⊢
  obtain ⟨h1, h2, h3, h4, h5⟩ := h
  refine ⟨by simpa using h1, by simpa using h2, ?_, ?_, ?_⟩
  · intro c hc
    rcases List.mem_map.mp hc with ⟨d, hd, rfl⟩
    exact lowerChar_isLabelChar (h3 d hd)
  · rw [List.head?_map]
    intro hx
    rcases Option.map_eq_some'.mp hx with ⟨d, hd, he⟩
    exact h4 (by rw [hd, lowerChar_eq_dash_iff.mp he])
  · rw [List.getLast?_map]
    intro hx
    rcases Option.map_eq_some'.mp hx with ⟨d, hd, he⟩
    exact h5 (by rw [hd, lowerChar_eq_dash_iff.mp he])

theorem middleLabelOk_map_lower {l : List Char} (h : middleLabelOk l = true) :
    middleLabelOk (l.map lowerChar) = true := by
  rw [middleLabelOk_iff] at h ⊢
  obtain ⟨h1, h2, h3⟩ := h
  refine ⟨by simpa using h1, by simpa using h2, ?_⟩
  intro c hc
  rcases List.mem_map.mp hc with ⟨d, hd, rfl⟩
  exact lowerChar_isLabelChar (h3 d hd)

theorem finalLabelOk_map_lower {l : List Char} (h : finalLabelOk l = true) :
    finalLabelOk (l.map lowerChar) = true := by
  rw [finalLabelOk_iff] at h ⊢
  obtain ⟨h1, h2⟩ := h
  refine ⟨by simpa using h1, ?_⟩
  intro c hc
  rcases List.mem_map.mp hc with ⟨d, hd, rfl⟩
  exact lowerChar_isAlphaCh (h2 d hd)

theorem domainReCh_map_lower {cs : List Char} (h : domainReCh cs = true) :
    domainReCh (cs.map lowerChar) = true := by
  unfold domainReCh at h ⊢
  rcases hs : splitDots cs with _ | ⟨p0, t⟩
  · exact absurd hs (splitDots_ne_nil cs)
  · rcases t with _ | ⟨p1, rest⟩
    · rw [hs] at h
      simp at h
    · rw [hs] at h
      rw [splitDots_map_lower, hs]
      simp only [List.map_cons, Bool.and_eq_true] at h ⊢
      obtain ⟨⟨h1, h2⟩, h3⟩ := h
      refine ⟨⟨firstLabelOk_map_lower h1, ?_⟩, ?_⟩
      · rw [List.all_eq_true] at h2 ⊢
        intro l hl
        rw [← List.map_cons, ← List.map_dropLast] at hl
        rcases List.mem_map.mp hl with ⟨m, hm, rfl⟩
        exact middleLabelOk_map_lower (h2 m hm)
      · rw [← List.map_cons, List.getLastD_eq_getLast?, List.getLast?_map]
        rcases hg : (p1 :: rest).getLast? with _ | g
        · simp [List.getLast?_eq_none_iff] at hg
        · rw [List.getLastD_eq_getLast?, hg] at h3
          simpa using finalLabelOk_map_lower h3

theorem isLabelChar_not_invalid {c : Char} (h : isLabelChar c = true) :
    isInvalidChar c = false := by
  simp only [isLabelChar, between, Bool.or_eq_true, decide_eq_true_eq] at h
  have hne : c.toNat ∉ invalidCharCodes := by
    intro hmem
    simp only [invalidCharCodes, List.mem_cons, List.not_mem_nil, or_false] at hmem
    omega
  simpa [isInvalidChar] using hne

theorem isInvalidChar_dot : isInvalidChar '.' = false := by decide

theorem mem_joinDots {labels : List (List Char)} {c : Char}
    (h : c ∈ joinDots labels) : c = '.' ∨ ∃ l ∈ labels, c ∈ l := by
  induction labels with
  | nil => cases h
  | cons l ls ih =>
    cases ls with
    | nil =>
      right
      exact ⟨l, by simp, by simpa [joinDots] using h⟩
    | cons m ms =>
      rw [joinDots_cons _ _ (by simp)] at h
      rcases List.mem_append.mp h with hl | hr
      · right
        exact ⟨l, by simp, hl⟩
      · rcases List.mem_cons.mp hr with rfl | hr2
        · left
          rfl
        · rcases ih hr2 with hdot | ⟨l2, hl2, hcl⟩
          · left
            exact hdot
          · right
            exact ⟨l2, List.mem_cons_of_mem l hl2, hcl⟩

theorem domainReCh_chars {cs : List Char} (h : domainReCh cs = true) :
    ∀ c ∈ cs, isLabelChar c = true ∨ c = '.' := by
  rcases (domainReCh_iff_amended cs).mp h with ⟨labels, hlen, hjoin, hfirst, hmid, hlast⟩
  intro c hc
  rw [← hjoin] at hc
  rcases mem_joinDots hc with rfl | ⟨l, hl, hcl⟩
  · right
    rfl
  · left
    rcases labels with _ | ⟨l0, t⟩
    · cases hl
    · rcases t with _ | ⟨l1, rest⟩
      · simp at hlen
      · rcases List.mem_cons.mp hl with rfl | hl2
        · exact (by simpa using hfirst : StrictLabel l).2.2.1 c hcl
        · rcases mem_dropLast_or_getLastD (l1 :: rest) l [] hl2 with hmidl | hgl
          · exact (hmid l (by simpa using hmidl)).2.2 c hcl
          · subst hgl
            have := (by simpa [List.getLastD] using hlast :
              AlphaFinalLabel ((l1 :: rest).getLastD [])).2 c hcl
            exact isLabelChar_of_isAlphaCh this

theorem domainReCh_no_invalid {cs : List Char} (h : domainReCh cs = true) :
    hasInvalidChars cs = false := by
  simp only [hasInvalidChars, List.any_eq_false]
  intro c hc
  rcases domainReCh_chars h c hc with hlab | rfl
  · simp [isLabelChar_not_invalid hlab]
  · simp [isInvalidChar_dot]

theorem domainReCh_ne_nil {cs : List Char} (h : domainReCh cs = true) : cs ≠ [] := by
  intro hnil
  subst hnil
  simp [domainReCh, splitDots] at h

theorem domainReCh_head_not_hash {cs : List Char} (h : domainReCh cs = true) :
    cs.head? ≠ some '#' := by
  intro hh
  rcases cs with _ | ⟨c, rest⟩
  · simp at hh
  · simp only [List.head?_cons, Option.some.injEq] at hh
    subst hh
    rcases domainReCh_chars h '#' (by simp) with hlab | hdot
    · exact absurd hlab (by decide)
    · cases hdot

theorem charLt_iff {a b : Char} : charLt a b = true ↔ a < b := by
  simp only [charLt, decide_eq_true_eq]
  exact Iff.rfl

theorem lexLt_iff_lex (cs ds : List Char) :
    lexLt cs ds = true ↔ List.Lex (· < ·) cs ds := by
  induction cs generalizing ds with
  | nil =>
    cases ds with
    | nil =>
      simp only [lexLt]
      constructor
      · intro h
        cases h
      · intro h
        cases h
    | cons d ds2 =>
      simp only [lexLt]
      constructor
      · intro _
        exact List.Lex.nil
      · intro _
        trivial
  | cons a as ih =>
    cases ds with
    | nil =>
      simp only [lexLt]
      constructor
      · intro h
        cases h
      · intro h
        cases h
    | cons b bs =>
      simp only [lexLt, Bool.or_eq_true, Bool.and_eq_true, beq_iff_eq]
      constructor
      · rintro (hlt | ⟨rfl, htail⟩)
        · exact List.Lex.rel (charLt_iff.mp hlt)
        · exact List.Lex.cons ((ih bs).mp htail)
      · intro h
        cases h with
        | rel hr => exact Or.inl (charLt_iff.mpr hr)
        | cons ht => exact Or.inr ⟨rfl, (ih bs).mpr ht⟩

theorem strLt_iff_lt (a b : String) : strLt a b = true ↔ a < b := by
  rw [String.lt_iff_toList_lt]
  exact lexLt_iff_lex a.data b.data

theorem mem_insertDom (x a : String) (l : List String) :
    a ∈ insertDom x l ↔ a = x ∨ a ∈ l := by
  induction l with
  | nil => simp [insertDom]
  | cons y ys ih =>
    simp only [insertDom]
    by_cases h1 : strLt x y = true
    · rw [if_pos h1]
      simp
    · rw [if_neg h1]
      by_cases h2 : x = y
      · rw [if_pos h2]
        subst h2
        simp only [List.mem_cons]
        tauto
      · rw [if_neg h2]
        simp only [List.mem_cons, ih]
        tauto

theorem sorted_insertDom (x : String) (l : List String)
    (h : l.Sorted (· < ·)) : (insertDom x l).Sorted (· < ·) := by
  induction l with
  | nil => simp [insertDom]
  | cons y ys ih =>
    rw [List.sorted_cons] at h
    simp only [insertDom]
    by_cases h1 : strLt x y = true
    · rw [if_pos h1]
      rw [List.sorted_cons]
      refine ⟨?_, List.sorted_cons.mpr h⟩
      intro b hb
      rcases List.mem_cons.mp hb with rfl | hb2
      · exact (strLt_iff_lt x b).mp h1
      · exact lt_trans ((strLt_iff_lt x y).mp h1) (h.1 b hb2)
    · rw [if_neg h1]
      by_cases h2 : x = y
      · rw [if_pos h2]
        exact List.sorted_cons.mpr h
      · rw [if_neg h2]
        rw [List.sorted_cons]
        refine ⟨?_, ih h.2⟩
        intro b hb
        rcases (mem_insertDom x b ys).mp hb with rfl | hb2
        · rcases lt_trichotomy b y with hlt | heq | hgt
          · exact absurd ((strLt_iff_lt b y).mpr hlt) h1
          · exact absurd heq h2
          · exact hgt
        · exact h.1 b hb2

theorem sorted_sortedUnique (l : List String) : (sortedUnique l).Sorted (· < ·) := by
  induction l with
  | nil => simp [sortedUnique]
  | cons x xs ih => exact sorted_insertDom x _ ih

theorem mem_sortedUnique (a : String) (l : List String) :
    a ∈ sortedUnique l ↔ a ∈ l := by
  induction l with
  | nil => simp [sortedUnique]
  | cons x xs ih =>
    simp only [sortedUnique, List.foldr_cons, List.mem_cons]
    rw [mem_insertDom]
    simp only [sortedUnique] at ih
    rw [ih]

theorem nodup_sortedUnique (l : List String) : (sortedUnique l).Nodup :=
  (sorted_sortedUnique l).nodup

theorem sortedUnique_eq_nil_iff (l : List String) : sortedUnique l = [] ↔ l = [] := by
  constructor
  · intro h
    cases l with
    | nil => rfl
    | cons x xs =>
      have : x ∈ sortedUnique (x :: xs) := (mem_sortedUnique x _).mpr (by simp)
      rw [h] at this
      cases this
  · intro h
    subst h
    rfl

theorem count_filter_partition (allow zs : List String) (d : String) :
    allow.count d = (allow.filter fun x => decide (x ∉ zs)).count d
      + (allow.filter fun x => decide (x ∈ zs)).count d := by
  induction allow with
  | nil => rfl
  | cons a rest ih =>
    by_cases hz : a ∈ zs
    · rw [List.filter_cons_of_neg (by simp [hz]), List.filter_cons_of_pos (by simp [hz])]
      rw [List.count_cons, List.count_cons, ih]
      ring
    · rw [List.filter_cons_of_pos (by simp [hz]), List.filter_cons_of_neg (by simp [hz])]
      rw [List.count_cons, List.count_cons, ih]
      ring

theorem deduplicate_eq_filter (allow zs : List String) :
    deduplicate allow zs =
      (allow.filter (fun d => decide (d ∉ zs)),
       allow.filter (fun d => decide (d ∈ zs))) := by
  induction allow with
  | nil => rfl
  | cons d rest ih =>
    simp only [deduplicate, ih, List.filter_cons]
    by_cases h : d ∈ zs <;> simp [h]

/-- C2: `deduplicate` routes every input domain to exactly one of the two
output lists (`removed` if the exclusion set contains it, else `kept`),
their union is the input list as a set (and even with multiplicity), and
both preserve the relative input order (they are sublists of the input).
Absence of mutation is inherent: `deduplicate` is a pure Lean function of
its arguments, as the Python function only reads its arguments. -/
theorem deduplicate_partition (allow zs : List String) :
    (∀ d ∈ allow,
        (d ∈ zs → d ∈ (deduplicate allow zs).2 ∧ d ∉ (deduplicate allow zs).1) ∧
        (d ∉ zs → d ∈ (deduplicate allow zs).1 ∧ d ∉ (deduplicate allow zs).2))
    ∧ (∀ d, d ∈ allow ↔ d ∈ (deduplicate allow zs).1 ∨ d ∈ (deduplicate allow zs).2)
    ∧ (deduplicate allow zs).1.Sublist allow
    ∧ (deduplicate allow zs).2.Sublist allow
    ∧ ∀ d, allow.count d =
        (deduplicate allow zs).1.count d + (deduplicate allow zs).2.count d := by
  rw [deduplicate_eq_filter]
  refine ⟨?_, ?_, ?_, ?_, ?_⟩
  · intro d hd
    constructor
    · intro hz
      constructor
      · simp [List.mem_filter, hd, hz]
      · simp [List.mem_filter, hz]
    · intro hz
      constructor
      · simp [List.mem_filter, hd, hz]
      · simp [List.mem_filter, hz]
  · intro d
    constructor
    · intro hd
      by_cases hz : d ∈ zs
      · right
        simp [List.mem_filter, hd, hz]
      · left
        simp [List.mem_filter, hd, hz]
    · intro h
      rcases h with h | h <;> exact (List.mem_filter.mp h).1
  · exact List.filter_sublist _
  · exact List.filter_sublist _
  · intro d
    simpa using count_filter_partition allow zs d

theorem deduplicate_partition_w :
    "a.com" ∈ (deduplicate ["a.com", "b.com"] ["b.com"]).1 ∧
      "b.com" ∈ (deduplicate ["a.com", "b.com"] ["b.com"]).2 ∧
      "b.com" ∉ (deduplicate ["a.com", "b.com"] ["b.com"]).1 :=
  have h := deduplicate_partition ["a.com", "b.com"] ["b.com"]
  ⟨((h.1 "a.com" (by decide)).2 (by decide)).1,
   ((h.1 "b.com" (by decide)).1 (by decide)).1,
   ((h.1 "b.com" (by decide)).1 (by decide)).2⟩

/-- C5: a failed exclusion fetch (any caught network error) yields the
empty set rather than propagating, and deduplicating any allow list
against the empty set keeps every domain and removes none. -/
theorem fetch_error_empty_dedup_keeps_all :
    (∀ msg : String, fetch_zscaler_preselected (Except.error msg) = [])
    ∧ ∀ allow : List String, deduplicate allow [] = (allow, []) := by
  constructor
  · intro msg
    rfl
  · intro allow
    induction allow with
    | nil => rfl
    | cons d rest ih => simp [deduplicate, ih]

theorem collectDomains_cons (raw : String) (rest : List String) :
    collectDomains (raw :: rest) =
      if lineAccepted raw then normLine raw :: collectDomains rest
      else collectDomains rest := by
  simp only [collectDomains, List.filterMap_cons]
  by_cases h1 : (normLineCh raw.data).isEmpty
  · simp [h1, lineAccepted, lineSurvives]
  · by_cases h2 : (normLineCh raw.data).head? = some '#'
    · simp [h1, h2, lineAccepted, lineSurvives]
    · by_cases h3 : hasInvalidChars (normLineCh raw.data)
      · simp [h1, h2, h3, lineAccepted, lineSurvives]
      · by_cases h4 : domainReCh (normLineCh raw.data)
        · simp [h1, h2, h3, h4, lineAccepted, lineSurvives, normLine]
        · simp [h1, h2, h3, h4, lineAccepted, lineSurvives]

/-- C3: `parse_allow_list` is fatal exactly when the file is missing or
no valid domain survives filtering, and an individually rejected line
never aborts parsing: dropping it leaves the result unchanged. -/
theorem parse_fatal_iff :
    (∀ file, (∃ e, parse_allow_list file = Except.error e) ↔
        file = none ∨ ∃ ls, file = some ls ∧ collectDomains ls = [])
    ∧ ∀ raw ls, lineAccepted raw = false →
        parse_allow_list (some (raw :: ls)) = parse_allow_list (some ls) := by
  constructor
  · intro file
    constructor
    · rintro ⟨e, he⟩
      cases file with
      | none => exact Or.inl rfl
      | some ls =>
        refine Or.inr ⟨ls, rfl, ?_⟩
        simp only [parse_allow_list] at he
        by_cases h : (sortedUnique (collectDomains ls)).isEmpty
        · rw [List.isEmpty_iff] at h
          exact (sortedUnique_eq_nil_iff _).mp h
        · rw [if_neg h] at he
          cases he
    · rintro (rfl | ⟨ls, rfl, hc⟩)
      · exact ⟨ParseFatal.fileNotFound, rfl⟩
      · refine ⟨ParseFatal.noValidDomains, ?_⟩
        simp [parse_allow_list, hc, sortedUnique]
  · intro raw ls h
    have hc : collectDomains (raw :: ls) = collectDomains ls := by
      rw [collectDomains_cons, if_neg (by simp [h])]
    show parse_allow_list (some (raw :: ls)) = parse_allow_list (some ls)
    simp only [parse_allow_list]
    rw [hc]

theorem parse_fatal_iff_w :
    lineAccepted "!bad" = false ∧
      parse_allow_list (some ["!bad", "good.com"]) =
        parse_allow_list (some ["good.com"]) :=
  ⟨by decide, parse_fatal_iff.2 "!bad" ["good.com"] (by decide)⟩

/-- C6: the three structural checks of `validate_pac` decide rejection
independently of the script engine: whatever the node outcome, a document
missing the function marker (or, with the marker, missing every quoted
DIRECT token, or missing every quoted PROXY token) is rejected with the
message naming the failed check. -/
theorem validate_pac_structural (node : NodeOutcome) (pac : String) :
    (containsSub pac "function FindProxyForURL" = false →
        validate_pac node pac = (false, [msgMissingFunction]))
    ∧ (containsSub pac "function FindProxyForURL" = true →
        containsSub pac "\"DIRECT\"" = false →
        containsSub pac (sq ++ "DIRECT" ++ sq) = false →
        validate_pac node pac = (false, [msgNoDirect]))
    ∧ (containsSub pac "function FindProxyForURL" = true →
        (containsSub pac "\"DIRECT\"" = true ∨
          containsSub pac (sq ++ "DIRECT" ++ sq) = true) →
        containsSub pac "\"PROXY" = false →
        containsSub pac (sq ++ "PROXY") = false →
        validate_pac node pac = (false, [msgNoProxy])) := by
  refine ⟨?_, ?_, ?_⟩
  · intro h1
    simp [validate_pac, h1]
  · intro h1 h2 h3
    simp [validate_pac, h1, h2, h3]
  · intro h1 h2 h3 h4
    rcases h2 with h2 | h2 <;> simp [validate_pac, h1, h2, h3, h4]

theorem validate_pac_structural_w :
    validate_pac NodeOutcome.passed "var x = 1;" = (false, [msgMissingFunction]) :=
  (validate_pac_structural NodeOutcome.passed "var x = 1;").1 (by decide)

/-- C1 counterexample: the line `a.-b.com` survives the earlier filters
and `parse_allow_list` accepts it as a domain, yet it does not satisfy
the spec grammar (its middle label `-b` has a leading hyphen): the
lookahead/lookbehind of `DOMAIN_RE` constrain only the first label. -/
theorem line_accept_iff_spec_grammar_cex :
    lineSurvives "a.-b.com" = true ∧ lineAccepted "a.-b.com" = true ∧
      ¬ SpecDomainGrammar (normLine "a.-b.com").data := by
  refine ⟨by decide, by decide, ?_⟩
  rintro ⟨labels, hlen, hjoin, hall, hfin⟩
  have hne : labels ≠ [] := by
    intro h
    rw [h] at hlen
    simp at hlen
  have hnodot : ∀ l ∈ labels, '.' ∉ l := by
    intro l hl hdot
    exact not_dot_of_isLabelChar ((hall l hl).2.2.1 '.' hdot) rfl
  have hsplit : splitDots (normLine "a.-b.com").data = labels := by
    rw [← hjoin]
    exact splitDots_joinDots hne hnodot
  have hval : splitDots (normLine "a.-b.com").data =
      [['a'], ['-', 'b'], ['c', 'o', 'm']] := by decide
  rw [hval] at hsplit
  have hbad : StrictLabel ['-', 'b'] := hall _ (by rw [← hsplit]; simp)
  exact hbad.2.2.2.1 rfl

/-- C1 (amended): for every line surviving the earlier filters,
`parse_allow_list` accepts it as a domain if and only if it matches the
grammar `DOMAIN_RE` implements: at least two dot-separated labels, a
FIRST label of 1-63 characters from the class with no leading or
trailing hyphen, MIDDLE labels of 1-63 class characters with hyphen
position unrestricted, and a final label that is alphabetic of length at
least 2 (with no 63-character cap). -/
theorem line_accept_iff_amended_grammar (raw : String)
    (h : lineSurvives raw = true) :
    lineAccepted raw = true ↔ AmendedDomainGrammar (normLine raw).data := by
  unfold lineAccepted
  rw [h, Bool.true_and]
  exact domainReCh_iff_amended (normLineCh raw.data)

theorem line_accept_iff_amended_grammar_w :
    lineSurvives "example.com" = true ∧
      (lineAccepted "example.com" = true ↔
        AmendedDomainGrammar (normLine "example.com").data) :=
  ⟨by decide, line_accept_iff_amended_grammar "example.com" (by decide)⟩

theorem mem_collectDomains_of_valid {lines : List String} {raw : String}
    (hraw : raw ∈ lines) (hval : domainReCh (normLineCh raw.data) = true) :
    String.mk (normLineCh raw.data) ∈ collectDomains lines := by
  refine List.mem_filterMap.mpr ⟨raw, hraw, ?_⟩
  have hne := domainReCh_ne_nil hval
  have hhash := domainReCh_head_not_hash hval
  have hinv := domainReCh_no_invalid hval
  simp only []
  rw [if_neg (by simp [hne]), if_neg (by simpa using hhash),
    if_neg (by simp [hinv]), if_pos hval]

/-- C4: every string matching `DOMAIN_RE` that appears (after stripping)
on some input line, in whatever letter case, is included in the parse
result exactly once and lowercased, and the result is lexicographically
sorted with no duplicates. -/
theorem parse_includes_valid_once (lines : List String) (d : String)
    (hval : domainRe d = true)
    (happ : ∃ raw ∈ lines, stripStr raw = d) :
    ∃ res, parse_allow_list (some lines) = Except.ok res ∧
      res.count (lowerStr d) = 1 ∧ res.Sorted (· < ·) ∧ res.Nodup := by
  obtain ⟨raw, hraw, hstrip⟩ := happ
  have hdata : stripChars raw.data = d.data := congrArg String.data hstrip
  have hnorm : normLineCh raw.data = d.data.map lowerChar := by
    unfold normLineCh
    rw [hdata]
  have hvallow : domainReCh (normLineCh raw.data) = true := by
    rw [hnorm]
    exact domainReCh_map_lower hval
  have hmem : lowerStr d ∈ collectDomains lines := by
    have h0 := mem_collectDomains_of_valid hraw hvallow
    have he : String.mk (normLineCh raw.data) = lowerStr d := by
      rw [hnorm]
      rfl
    rwa [he] at h0
  have hmem2 : lowerStr d ∈ sortedUnique (collectDomains lines) :=
    (mem_sortedUnique _ _).mpr hmem
  have hne : (sortedUnique (collectDomains lines)).isEmpty = false := by
    have := List.ne_nil_of_mem hmem2
    cases hq : sortedUnique (collectDomains lines) with
    | nil => exact absurd hq this
    | cons a t => rfl
  refine ⟨sortedUnique (collectDomains lines), ?_, ?_,
    sorted_sortedUnique _, nodup_sortedUnique _⟩
  · simp [parse_allow_list, hne]
  · have h1 := List.nodup_iff_count_le_one.mp (nodup_sortedUnique (collectDomains lines))
      (lowerStr d)
    have h2 := List.count_pos_iff.mpr hmem2
    omega

theorem parse_includes_valid_once_w :
    ∃ res, parse_allow_list (some ["Example.COM"]) = Except.ok res ∧
      res.count (lowerStr "Example.COM") = 1 ∧ res.Sorted (· < ·) ∧ res.Nodup :=
  parse_includes_valid_once ["Example.COM"] "Example.COM" (by decide)
    ⟨"Example.COM", by simp, by decide⟩

theorem mem_setInsert {acc : List String} {x d : String} (h : d ∈ setInsert acc x) :
    d ∈ acc ∨ d = x := by
  unfold setInsert at h
  by_cases hx : x ∈ acc
  · rw [if_pos hx] at h
    exact Or.inl h
  · rw [if_neg hx] at h
    rcases List.mem_append.mp h with h | h
    · exact Or.inl h
    · right
      simpa using h

theorem noUpperCh_stripWildcard {cs : List Char} (h : noUpperCh cs = true) :
    noUpperCh (stripWildcard cs) = true := by
  unfold stripWildcard
  split
  · simp only [noUpperCh, List.all_cons, Bool.and_eq_true] at h
    exact h.2.2
  · exact h

theorem mem_processDrdbLine {acc : List String} {l : List Char} {d : String}
    (h : d ∈ processDrdbLine acc l) :
    d ∈ acc ∨ (noUpperCh d.data = true ∧ domainReCh d.data = true) := by
  simp only [processDrdbLine] at h
  by_cases h1 : (normLineCh l).isEmpty
  · rw [if_pos h1] at h
    exact Or.inl h
  · rw [if_neg h1] at h
    by_cases h2 : (normLineCh l).head? = some '#'
    · rw [if_pos h2] at h
      exact Or.inl h
    · rw [if_neg h2] at h
      by_cases h3 : domainReCh (stripWildcard (normLineCh l)) = true
      · rw [if_pos h3] at h
        rcases mem_setInsert h with hacc | rfl
        · exact Or.inl hacc
        · right
          refine ⟨?_, h3⟩
          show noUpperCh (stripWildcard (normLineCh l)) = true
          exact noUpperCh_stripWildcard (noUpperCh_map_lower _)
      · rw [if_neg h3] at h
        exact Or.inl h

theorem mem_foldl_processDrdbLine (ls : List (List Char)) (acc : List String)
    (d : String) (h : d ∈ ls.foldl processDrdbLine acc) :
    d ∈ acc ∨ (noUpperCh d.data = true ∧ domainReCh d.data = true) := by
  induction ls generalizing acc with
  | nil => exact Or.inl h
  | cons l rest ih =>
    rcases ih (processDrdbLine acc l) h with hacc | hgood
    · exact mem_processDrdbLine hacc
    · exact Or.inr hgood

/-- C8: a fetched line whose normalized form begins with the wildcard
prefix has that prefix stripped to the apex before grammar validation and
set insertion, and every element of the returned set is a lowercase
(no ASCII uppercase) domain matching `DOMAIN_RE`. -/
theorem fetch_wildcard_and_lowercase :
    (∀ (acc : List String) (rawLine apex : List Char),
        normLineCh rawLine = '*' :: '.' :: apex →
        processDrdbLine acc rawLine =
          if domainReCh apex then setInsert acc (String.mk apex) else acc)
    ∧ ∀ (body d : String), d ∈ fetch_zscaler_preselected (Except.ok body) →
        noUpperCh d.data = true ∧ domainRe d = true := by
  constructor
  · intro acc rawLine apex h
    simp only [processDrdbLine, h]
    rw [if_neg (by simp), if_neg (by simp)]
    rfl
  · intro body d h
    simp only [fetch_zscaler_preselected] at h
    rcases mem_foldl_processDrdbLine _ _ _ h with hnil | hgood
    · cases hnil
    · exact hgood

theorem fetch_wildcard_and_lowercase_w :
    processDrdbLine [] ("*.example.com".data) =
      (if domainReCh ("example.com".data) then
        setInsert [] (String.mk ("example.com".data)) else []) :=
  fetch_wildcard_and_lowercase.1 [] ("*.example.com".data) ("example.com".data)
    (by decide)

theorem intercalate_go_append (s x y : String) (t : List String) :
    String.intercalate.go (x ++ y) s t = x ++ String.intercalate.go y s t := by
  induction t generalizing y with
  | nil => rfl
  | cons a as ih =>
    show String.intercalate.go (x ++ y ++ s ++ a) s as =
      x ++ String.intercalate.go (y ++ s ++ a) s as
    rw [String.append_assoc, String.append_assoc, ih, ← String.append_assoc y s a]

theorem intercalate_cons_cons (s a b : String) (t : List String) :
    String.intercalate s (a :: b :: t) =
      a ++ s ++ String.intercalate s (b :: t) := by
  show String.intercalate.go a s (b :: t) = a ++ s ++ String.intercalate.go b s t
  show String.intercalate.go (a ++ s ++ b) s t = a ++ s ++ String.intercalate.go b s t
  exact intercalate_go_append s (a ++ s) b t

theorem ends_with_newline_append (s t : String)
    (h : t.data.getLast? = some '\n') :
    (s ++ t).data.getLast? = some '\n' := by
  have hd : (s ++ t).data = s.data ++ t.data := rfl
  rw [hd, List.getLast?_append_of_ne_nil]
  · exact h
  · intro hnil
    rw [hnil] at h
    cases h

/-- C9: the renderer embeds the domains exactly as the spec describes
(the list block equals the intercalation of the quoted entries: one per
line, comma-separated, no trailing comma, in input order), the empty list
produces the valid empty literal, and the output ends with a newline. -/
theorem render_pac_shape (domains : List String) :
    domainListBlock domains = specListLines domains
    ∧ (render_pac domains).data.getLast? = some '\n'
    ∧ containsSub (render_pac []) "var allowed = [\n    ];" = true := by
  refine ⟨?_, ?_, by decide⟩
  · induction domains with
    | nil => rfl
    | cons d rest ih =>
      cases rest with
      | nil => rfl
      | cons e t =>
        show "    " ++ quoteDom d ++ ",\n" ++ domainListBlock (e :: t) =
          specListLines (d :: e :: t)
        rw [ih]
        show _ = String.intercalate ",\n" (("    " ++ quoteDom d) ::
          ("    " ++ quoteDom e) :: t.map fun x => "    " ++ quoteDom x) ++ "\n"
        rw [intercalate_cons_cons]
        show "    " ++ quoteDom d ++ ",\n" ++
            (if False then "" else String.intercalate ",\n" (("    " ++ quoteDom e) ::
              t.map fun x => "    " ++ quoteDom x) ++ "\n") = _
        rw [if_neg (by simp)]
        simp [String.append_assoc]
  · unfold render_pac
    exact ends_with_newline_append _ _ (by decide)

theorem renderValidateWrite_snd (args : Args) (env : Env) (ds : List String)
    (tr : Trace) : (renderValidateWrite args env ds tr).2 = tr := by
  unfold renderValidateWrite
  by_cases h : (!args.skipValidation && !(validate_pac env.node (render_pac ds)).1) = true
  · rw [if_pos h]
  · rw [if_neg h]

theorem renderValidateWrite_ok {args : Args} {env : Env} {ds : List String}
    {tr : Trace} {ds2 : List String} {pac : String}
    (h : (renderValidateWrite args env ds tr).1 = Except.ok (ds2, pac)) :
    ds2 = ds ∧ pac = render_pac ds ∧
      (args.skipValidation = false →
        (validate_pac env.node (render_pac ds)).1 = true) := by
  unfold renderValidateWrite at h
  by_cases hc : (!args.skipValidation && !(validate_pac env.node (render_pac ds)).1) = true
  · rw [if_pos hc] at h
    cases h
  · rw [if_neg hc] at h
    simp only [Except.ok.injEq, Prod.mk.injEq] at h
    refine ⟨h.1.symm, h.2.symm, ?_⟩
    intro hsv
    rw [hsv] at hc
    simpa using hc

theorem renderValidateWrite_error_of_invalid {args : Args} {env : Env}
    {ds : List String} (tr : Trace) (hsv : args.skipValidation = false)
    (hv : (validate_pac env.node (render_pac ds)).1 = false) :
    (renderValidateWrite args env ds tr).1 = Except.error 1 := by
  unfold renderValidateWrite
  rw [if_pos (by rw [hsv, hv]; rfl)]

theorem renderValidateWrite_error_eq_one {args : Args} {env : Env}
    {ds : List String} {tr : Trace} {e : Nat}
    (h : (renderValidateWrite args env ds tr).1 = Except.error e) : e = 1 := by
  unfold renderValidateWrite at h
  by_cases hc : (!args.skipValidation && !(validate_pac env.node (render_pac ds)).1) = true
  · rw [if_pos hc] at h
    simpa using h.symm
  · rw [if_neg hc] at h
    cases h

theorem pipelineDomains_error_eq_one {args : Args} {env : Env} {e : Nat}
    {tr : Trace} (h : pipelineDomains args env = (Except.error e, tr)) :
    e = 1 := by
  unfold pipelineDomains at h
  rcases hp : parse_allow_list env.allowFile with he | ds0
  all_goals rw [hp] at h
  all_goals dsimp only at h
  · simp only [Prod.mk.injEq, Except.error.injEq] at h
    exact h.1.symm
  · by_cases hs : args.skipDedup
    · rw [if_pos hs] at h
      cases h
    · rw [if_neg (by simp [hs])] at h
      by_cases hz : (fetch_zscaler_preselected env.drdbResponse).isEmpty
      · rw [if_pos hz] at h
        cases h
      · rw [if_neg hz] at h
        by_cases hk : ((deduplicate ds0 (fetch_zscaler_preselected env.drdbResponse)).1).isEmpty
        · rw [if_pos hk] at h
          simp only [Prod.mk.injEq, Except.error.injEq] at h
          exact h.1.symm
        · rw [if_neg hk] at h
          cases h

/-- C7: the model writes the PAC document (the `Except.ok` payload) only
when every required stage succeeded, and every fatal path — parse
failure, every domain removed by deduplication, or validation failure
when validation is not skipped — exits with the non-zero code 1 and
produces no written output (the `Except.error` case carries none). -/
theorem main_writes_only_on_success (args : Args) (env : Env) :
    (∀ e, (main args env).1 = Except.error e → e = 1)
    ∧ (∀ ds pac, (main args env).1 = Except.ok (ds, pac) →
        pac = render_pac ds ∧ (pipelineDomains args env).1 = Except.ok ds ∧
        (args.skipValidation = false → (validate_pac env.node pac).1 = true))
    ∧ ((∃ e, parse_allow_list env.allowFile = Except.error e) →
        (main args env).1 = Except.error 1)
    ∧ (∀ ds0, parse_allow_list env.allowFile = Except.ok ds0 →
        args.skipDedup = false →
        (fetch_zscaler_preselected env.drdbResponse).isEmpty = false →
        ((deduplicate ds0 (fetch_zscaler_preselected env.drdbResponse)).1).isEmpty = true →
        (main args env).1 = Except.error 1)
    ∧ (∀ ds, (pipelineDomains args env).1 = Except.ok ds →
        args.skipValidation = false →
        (validate_pac env.node (render_pac ds)).1 = false →
        (main args env).1 = Except.error 1) := by
  refine ⟨?_, ?_, ?_, ?_, ?_⟩
  · intro e he
    rcases hp : pipelineDomains args env with ⟨res, tr⟩
    cases res with
    | error e2 =>
      have hm : (main args env).1 = Except.error e2 := by
        unfold main
        rw [hp]
      rw [hm] at he
      cases he
      exact pipelineDomains_error_eq_one hp
    | ok ds =>
      have hm : main args env = renderValidateWrite args env ds tr := by
        unfold main
        rw [hp]
      rw [hm] at he
      exact renderValidateWrite_error_eq_one he
  · intro ds pac h
    rcases hp : pipelineDomains args env with ⟨res, tr⟩
    cases res with
    | error e2 =>
      have hm : (main args env).1 = Except.error e2 := by
        unfold main
        rw [hp]
      rw [hm] at h
      cases h
    | ok ds0 =>
      have hm : main args env = renderValidateWrite args env ds0 tr := by
        unfold main
        rw [hp]
      rw [hm] at h
      obtain ⟨h1, h2, h3⟩ := renderValidateWrite_ok h
      subst h1
      refine ⟨h2, ?_, by rw [h2]; exact h3⟩
      simp [hp]
  · rintro ⟨e, he⟩
    have hp : pipelineDomains args env = (Except.error 1, ⟨false, false, false⟩) := by
      unfold pipelineDomains
      rw [he]
    unfold main
    rw [hp]
  · intro ds0 hp0 hs hz hk
    have hp : pipelineDomains args env = (Except.error 1, ⟨true, true, true⟩) := by
      unfold pipelineDomains
      rw [hp0]
      dsimp only
      rw [if_neg (by simp [hs]), if_neg (by simp [hz]), if_pos hk]
    unfold main
    rw [hp]
  · intro ds hds hsv hv
    rcases hp : pipelineDomains args env with ⟨res, tr⟩
    rw [hp] at hds
    simp only at hds
    cases res with
    | error e2 => cases hds
    | ok ds0 =>
      cases hds
      have hm : main args env = renderValidateWrite args env ds tr := by
        unfold main
        rw [hp]
      rw [hm]
      exact renderValidateWrite_error_of_invalid tr hsv hv

theorem main_writes_only_on_success_w :
    (main ⟨false, false⟩ ⟨none, Except.error "down", NodeOutcome.passed⟩).1 =
      Except.error 1 :=
  (main_writes_only_on_success ⟨false, false⟩
      ⟨none, Except.error "down", NodeOutcome.passed⟩).2.2.1
    ⟨ParseFatal.fileNotFound, rfl⟩

/-- C10: with `--skip-dedup` the exclusion fetch is never issued and
`deduplicate` is never called (the whole trace is false), and even
without it, an empty fetched set skips both `deduplicate` and the
all-domains-removed fatal check; in both situations a successful run
renders exactly the parser output. -/
theorem main_skip_dedup_behaviour (args : Args) (env : Env) :
    (args.skipDedup = true →
        (main args env).2 = ⟨false, false, false⟩ ∧
        ∀ ds pac, (main args env).1 = Except.ok (ds, pac) →
          parse_allow_list env.allowFile = Except.ok ds)
    ∧ (args.skipDedup = false →
        fetch_zscaler_preselected env.drdbResponse = [] →
        (main args env).2.dedupCalled = false ∧
        (main args env).2.removedCheckDone = false ∧
        ∀ ds pac, (main args env).1 = Except.ok (ds, pac) →
          parse_allow_list env.allowFile = Except.ok ds) := by
  constructor
  · intro hs
    rcases hp0 : parse_allow_list env.allowFile with he | ds0
    · have hp : pipelineDomains args env = (Except.error 1, ⟨false, false, false⟩) := by
        unfold pipelineDomains
        rw [hp0]
      have hm : main args env = (Except.error 1, ⟨false, false, false⟩) := by
        unfold main
        rw [hp]
      rw [hm]
      exact ⟨rfl, by intro ds pac h; cases h⟩
    · have hp : pipelineDomains args env = (Except.ok ds0, ⟨false, false, false⟩) := by
        unfold pipelineDomains
        rw [hp0]
        dsimp only
        rw [if_pos hs]
      have hm : main args env =
          renderValidateWrite args env ds0 ⟨false, false, false⟩ := by
        unfold main
        rw [hp]
      rw [hm]
      refine ⟨renderValidateWrite_snd _ _ _ _, ?_⟩
      intro ds pac h
      obtain ⟨h1, _, _⟩ := renderValidateWrite_ok h
      rw [h1]
  · intro hs hz
    rcases hp0 : parse_allow_list env.allowFile with he | ds0
    · have hp : pipelineDomains args env = (Except.error 1, ⟨false, false, false⟩) := by
        unfold pipelineDomains
        rw [hp0]
      have hm : main args env = (Except.error 1, ⟨false, false, false⟩) := by
        unfold main
        rw [hp]
      rw [hm]
      exact ⟨rfl, rfl, by intro ds pac h; cases h⟩
    · have hp : pipelineDomains args env = (Except.ok ds0, ⟨true, false, false⟩) := by
        unfold pipelineDomains
        rw [hp0]
        dsimp only
        rw [if_neg (by simp [hs]), if_pos (by rw [hz]; rfl)]
      have hm : main args env =
          renderValidateWrite args env ds0 ⟨true, false, false⟩ := by
        unfold main
        rw [hp]
      rw [hm]
      rw [renderValidateWrite_snd]
      refine ⟨rfl, rfl, ?_⟩
      intro ds pac h
      obtain ⟨h1, _, _⟩ := renderValidateWrite_ok h
      rw [h1]

theorem main_skip_dedup_behaviour_w :
    (main ⟨true, false⟩
      ⟨some ["a.com"], Except.ok "b.com", NodeOutcome.passed⟩).2 =
      ⟨false, false, false⟩ :=
  ((main_skip_dedup_behaviour ⟨true, false⟩
    ⟨some ["a.com"], Except.ok "b.com", NodeOutcome.passed⟩).1 rfl).1

end PacBuilder
